import Mathlib

/-!
# The log copier of `daemon/logger/copier.go`

A shallow embedding of `Copier`, `NewCopier`, `Copier.Run`, `Copier.copySrc`
and `Copier.Wait`, followed by the properties of the multiplexer that the
specification states.

Modelling conventions.

* The external collaborators are inputs of the model.  An `io.Reader` is the
  script of the results its successive `Read` calls produce; a script that is
  used up stands for a worker blocked inside `Read`.  A reader keeps the
  contract of `io.Reader`: it returns a count `0 ≤ n ≤ len(p)` and has stored
  that many bytes at the front of `p`.  The sink (`Logger`) is a pair of
  functions on an arbitrary sink state; it does not write to the line it is
  handed.  The wall clock is a function from the number of `time.Now()` calls
  made so far to the instant returned.
* Every effect the worker performs is recorded, in program order, in a trace
  of `Event`s.
* Go iterates over a map in an unspecified order; `srcs` is the list of the
  entries in the order in which `Run` happens to visit them.
* In the interleaving model one loop iteration of a worker is one atomic step
  and the deferred `copyJobs.Done()` runs in the step that executes `return`.
-/

namespace LogCopier

/-- One byte of log data. -/
abbrev Byte := Fin 256

/-- A Go `error` value that is not nil; `EOF` is the sentinel `io.EOF`. -/
inductive GoError where
  | EOF
  | other (msg : String)
  deriving DecidableEq, Repr

/-- The location a `time.Time` is presented in. -/
inductive Location where
  | Local
  | UTC
  deriving DecidableEq, Repr

/-- A `time.Time`: an instant together with its location. -/
structure Time where
  instant : Nat
  loc : Location
  deriving DecidableEq, Repr

/-- The method `time.Time.UTC`: same instant, location set to UTC. -/
def Time.UTC (t : Time) : Time := { t with loc := Location.UTC }

/-- The struct `logger.Message`. -/
structure Message where
  ContainerID : String
  Line : List Byte
  Source : String
  Timestamp : Time
  deriving DecidableEq, Repr

/-- The interface `logger.Logger` as used by the copier: `Log` and `Name`,
acting on a sink state of type `σ`. -/
structure Logger (σ : Type) where
  Log : σ → Message → σ × Option GoError
  Name : σ → String

/-- What one call of `src.Read(p)` does: the bytes the reader has available
(copied to the front of `p`, as many as fit) and the error it returns. -/
structure ReadResult where
  data : List Byte
  err : Option GoError
  deriving DecidableEq, Repr

/-- An `io.Reader`: the results of its successive `Read` calls. -/
abbrev Reader := List ReadResult

/-- The call `src.Read(p)`: returns the buffer after the call, the byte count
`n` with `0 ≤ n ≤ len(p)`, and the error. -/
def Read (r : ReadResult) (p : List Byte) : List Byte × Nat × Option GoError :=
  let n := min r.data.length p.length
  (r.data.take n ++ p.drop n, n, r.err)

/-- An argument of a `logrus.Errorf` call. -/
inductive Arg where
  | bytes (b : List Byte)
  | str (s : String)
  | err (e : GoError)
  deriving DecidableEq, Repr

/-- The effects of a worker, in the order the program performs them. -/
inductive Event where
  | read (p : List Byte) (n : Nat) (err : Option GoError)
  | now (t : Time)
  | log (m : Message) (res : Option GoError)
  | name (s : String)
  | errorf (format : String) (args : List Arg)
  | done
  deriving DecidableEq, Repr

/-- The state outside the copier: the sink, the number of `time.Now()` calls
made so far, and the trace of effects. -/
structure World (σ : Type) where
  sink : σ
  ticks : Nat
  trace : List Event

/-- The struct `Copier`; `copyJobs` is the counter of the `sync.WaitGroup`. -/
structure Copier (σ : Type) where
  cid : String
  srcs : List (String × Reader)
  dst : Logger σ
  copyJobs : Int

/-- The constructor `NewCopier`; the wait group starts at its zero value. -/
def NewCopier {σ : Type} (cid : String) (srcs : List (String × Reader)) (dst : Logger σ) :
    Copier σ :=
  { cid := cid, srcs := srcs, dst := dst, copyJobs := 0 }

/-- The size of the scratch buffer, `make([]byte, 4096)`. -/
def bufSize : Nat := 4096

/-- The two ways a worker ends: `Ended` on `io.EOF`, `Errored` otherwise. -/
inductive Terminal where
  | Ended
  | Errored
  deriving DecidableEq, Repr

/-- The format of the diagnostic for a failed `Log` call. -/
def logFailedFmt : String := "Failed to log msg %q for logger %s: %s"

/-- The format of the diagnostic for a failed read. -/
def scanErrorFmt : String := "Error scanning log stream: %s"

/-- The first `if` of the loop body of `copySrc`, after `Read` has filled `p`
and returned `(n, err)`: forward the chunk and report a failing sink. -/
def forward {σ : Type} (c : Copier σ) (clock : Nat → Time) (name : String)
    (p : List Byte) (n : Nat) (err : Option GoError) (w : World σ) : World σ :=
  if err = none ∨ n > 0 then
    let t := clock w.ticks
    let m : Message :=
      { ContainerID := c.cid, Line := p.take n, Source := name, Timestamp := t.UTC }
    let res := c.dst.Log w.sink m
    let w1 : World σ :=
      { sink := res.1, ticks := w.ticks + 1,
        trace := w.trace ++ [Event.now t, Event.log m res.2] }
    match res.2 with
    | none => w1
    | some logErr =>
      let s := c.dst.Name w1.sink
      { w1 with
        trace := w1.trace ++
          [Event.name s,
            Event.errorf logFailedFmt [Arg.bytes (p.take n), Arg.str s, Arg.err logErr]] }
  else w

/-- The second `if` of the loop body of `copySrc`: on a non-nil error report
it unless it is `io.EOF`, and return. -/
def finish {σ : Type} (err : Option GoError) (w : World σ) : World σ × Option Terminal :=
  match err with
  | none => (w, none)
  | some e =>
    if e ≠ GoError.EOF then
      ({ w with trace := w.trace ++ [Event.errorf scanErrorFmt [Arg.err e]] },
        some Terminal.Errored)
    else (w, some Terminal.Ended)

/-- One iteration of the `for` loop of `copySrc`, on the read `r`. -/
def copyIter {σ : Type} (c : Copier σ) (clock : Nat → Time) (name : String)
    (r : ReadResult) (buf : List Byte) (w : World σ) :
    List Byte × World σ × Option Terminal :=
  let rd := Read r buf
  let w1 : World σ := { w with trace := w.trace ++ [Event.read rd.1 rd.2.1 rd.2.2] }
  let w2 := forward c clock name rd.1 rd.2.1 rd.2.2 w1
  (rd.1, finish rd.2.2 w2)

/-- The `for` loop of `copySrc`; `none` when the script is used up before a
read returned an error (the worker is blocked in `Read`). -/
def copyLoop {σ : Type} (c : Copier σ) (clock : Nat → Time) (name : String) :
    Reader → List Byte → World σ → World σ × Option Terminal
  | [], _, w => (w, none)
  | r :: rs, buf, w =>
    match copyIter c clock name r buf w with
    | (_, w1, some t) => (w1, some t)
    | (buf1, w1, none) => copyLoop c clock name rs buf1 w1

/-- The deferred `c.copyJobs.Done()`: it runs when the loop has returned. -/
def deferDone {σ : Type} (res : World σ × Option Terminal) : World σ × Option Terminal :=
  match res with
  | (w, some t) => ({ w with trace := w.trace ++ [Event.done] }, some t)
  | (w, none) => (w, none)

/-- The method `Copier.copySrc`. -/
def copySrc {σ : Type} (c : Copier σ) (clock : Nat → Time) (name : String) (src : Reader)
    (w : World σ) : World σ × Option Terminal :=
  deferDone (copyLoop c clock name src (List.replicate bufSize 0) w)


/-- What `Run` does to the shared state, one entry per program step. -/
inductive RunAction where
  | add (delta : Int)
  | go (name : String) (src : Reader)
  deriving DecidableEq, Repr

/-- The method `Copier.Run`: for every entry of `srcs`, `c.copyJobs.Add(1)`
followed by `go c.copySrc(src, w)`; it returns when the list is used up. -/
def Run {σ : Type} (c : Copier σ) : List RunAction :=
  c.srcs.flatMap fun e => [RunAction.add 1, RunAction.go e.1 e.2]

/-- A goroutine running `copySrc`: the reads its source has still to return,
its scratch buffer, and how it ended once it has. -/
structure Worker where
  name : String
  src : Reader
  buf : List Byte
  status : Option Terminal
  deriving DecidableEq, Repr

/-- The goroutine started by `go c.copySrc(name, src)`. -/
def Worker.spawn (name : String) (src : Reader) : Worker :=
  { name := name, src := src, buf := List.replicate bufSize 0, status := none }

/-- The whole program: the copier, what `Run` has still to do (`[]` once it
has returned), the scheduled workers and the outside world. -/
structure System (σ : Type) where
  c : Copier σ
  todo : List RunAction
  workers : List Worker
  world : World σ

/-- The state in which the caller enters `c.Run()`. -/
def System.start {σ : Type} (c : Copier σ) (w : World σ) : System σ :=
  { c := c, todo := Run c, workers := [], world := w }

/-- The call `wg.Add(delta)` on the counter; `none` is the panic
"sync: negative WaitGroup counter". -/
def wgAdd (counter delta : Int) : Option Int :=
  if counter + delta < 0 then none else some (counter + delta)

/-- Who takes the next step: the goroutine executing `Run`, or worker `i`. -/
inductive Label where
  | run
  | worker (i : Nat)
  deriving DecidableEq, Repr

/-- One step of the program.  `none` when the chosen goroutine cannot move
(it has returned, or is blocked in `Read`) or the step panics. -/
def step {σ : Type} (clock : Nat → Time) (s : System σ) : Label → Option (System σ)
  | Label.run =>
    match s.todo with
    | [] => none
    | RunAction.add d :: rest =>
      (wgAdd s.c.copyJobs d).map fun k =>
        { s with c := { s.c with copyJobs := k }, todo := rest }
    | RunAction.go name src :: rest =>
      some { s with todo := rest, workers := s.workers ++ [Worker.spawn name src] }
  | Label.worker i =>
    match s.workers[i]? with
    | none => none
    | some wk =>
      match wk.status, wk.src with
      | some _, _ => none
      | none, [] => none
      | none, r :: rs =>
        match copyIter s.c clock wk.name r wk.buf s.world with
        | (buf1, w1, none) =>
          some { s with
            workers := s.workers.set i { wk with src := rs, buf := buf1 },
            world := w1 }
        | (buf1, w1, some t) =>
          (wgAdd s.c.copyJobs (-1)).map fun k =>
            { c := { s.c with copyJobs := k }, todo := s.todo,
              workers := s.workers.set i { wk with src := rs, buf := buf1, status := some t },
              world := { w1 with trace := w1.trace ++ [Event.done] } }

/-- Running a schedule: the steps are taken in the order of the labels. -/
def exec {σ : Type} (clock : Nat → Time) (s : System σ) : List Label → Option (System σ)
  | [] => some s
  | l :: ls => (step clock s l).bind fun s1 => exec clock s1 ls

/-- The method `Copier.Wait`: whether `c.copyJobs.Wait()` returns, which it
does exactly when the counter is zero. -/
def Wait {σ : Type} (c : Copier σ) : Bool := c.copyJobs == 0

/-- The messages handed to the sink, in trace order. -/
def logged : List Event → List Message
  | [] => []
  | Event.log m _ :: es => m :: logged es
  | _ :: es => logged es

/-- The `(n, err)` results of the reads performed, in trace order. -/
def readsOf : List Event → List (Nat × Option GoError)
  | [] => []
  | Event.read _ n err :: es => (n, err) :: readsOf es
  | _ :: es => readsOf es

/-- The `logrus.Errorf` calls with the given format, in trace order. -/
def diagnostics (fmt : String) : List Event → List (List Arg)
  | [] => []
  | Event.errorf f args :: es =>
    if f = fmt then args :: diagnostics fmt es else diagnostics fmt es
  | _ :: es => diagnostics fmt es

/-- The number of `Done` calls in a trace. -/
def doneCount (tr : List Event) : Nat := tr.count Event.done

/-- A sink that accepts every message. -/
def okSink : Logger Unit :=
  { Log := fun _ _ => ((), none), Name := fun _ => "ok" }

/-- A sink that rejects every message and counts the calls. -/
def badSink : Logger Nat :=
  { Log := fun k _ => (k + 1, some (GoError.other "disk full")), Name := fun _ => "bad" }

/-- A clock that advances by one at every call and reports local time. -/
def tickClock : Nat → Time := fun k => { instant := k, loc := Location.Local }

/-- The world before anything has happened. -/
def World.fresh {σ : Type} (sink : σ) : World σ := { sink := sink, ticks := 0, trace := [] }

/-- The events that follow a `Log` call: none if it succeeded, else the
`Name()` call and the diagnostic. -/
def failEvents (line : List Byte) (sinkName : String) : Option GoError → List Event
  | none => []
  | some logErr =>
    [Event.name sinkName,
      Event.errorf logFailedFmt [Arg.bytes line, Arg.str sinkName, Arg.err logErr]]

/-- The events the first `if` of the loop body adds to the trace. -/
def fwdEvents {σ : Type} (c : Copier σ) (clock : Nat → Time) (name : String)
    (p : List Byte) (n : Nat) (err : Option GoError) (sink : σ) (ticks : Nat) : List Event :=
  if err = none ∨ n > 0 then
    let m : Message :=
      { ContainerID := c.cid, Line := p.take n, Source := name,
        Timestamp := (clock ticks).UTC }
    let res := c.dst.Log sink m
    Event.now (clock ticks) :: Event.log m res.2 ::
      failEvents (p.take n) (c.dst.Name res.1) res.2
  else []

/-- The sink after the first `if` of the loop body. -/
def fwdSink {σ : Type} (c : Copier σ) (clock : Nat → Time) (name : String)
    (p : List Byte) (n : Nat) (err : Option GoError) (sink : σ) (ticks : Nat) : σ :=
  if err = none ∨ n > 0 then
    (c.dst.Log sink
      { ContainerID := c.cid, Line := p.take n, Source := name,
        Timestamp := (clock ticks).UTC }).1
  else sink

/-- The number of clock samples taken after the first `if` of the loop body. -/
def fwdTicks (n : Nat) (err : Option GoError) (ticks : Nat) : Nat :=
  if err = none ∨ n > 0 then ticks + 1 else ticks

/-- The events the second `if` of the loop body adds to the trace. -/
def finEvents : Option GoError → List Event
  | none => []
  | some e => if e ≠ GoError.EOF then [Event.errorf scanErrorFmt [Arg.err e]] else []

/-- How the loop body leaves the loop, if it does. -/
def finStatus : Option GoError → Option Terminal
  | none => none
  | some e => if e ≠ GoError.EOF then some Terminal.Errored else some Terminal.Ended

/-- The events one loop iteration adds to the trace. -/
def iterEvents {σ : Type} (c : Copier σ) (clock : Nat → Time) (name : String)
    (r : ReadResult) (buf : List Byte) (sink : σ) (ticks : Nat) : List Event :=
  Event.read (Read r buf).1 (Read r buf).2.1 r.err ::
    (fwdEvents c clock name (Read r buf).1 (Read r buf).2.1 r.err sink ticks ++ finEvents r.err)

/-- The events the loop adds to the trace. -/
def loopEvents {σ : Type} (c : Copier σ) (clock : Nat → Time) (name : String) :
    Reader → List Byte → σ → Nat → List Event
  | [], _, _, _ => []
  | r :: rs, buf, sink, ticks =>
    iterEvents c clock name r buf sink ticks ++
      (match r.err with
        | some _ => []
        | none =>
          loopEvents c clock name rs (Read r buf).1
            (fwdSink c clock name (Read r buf).1 (Read r buf).2.1 r.err sink ticks)
            (fwdTicks (Read r buf).2.1 r.err ticks))

/-- How the loop ends on a script: at the first read with an error. -/
def loopStatus : Reader → Option Terminal
  | [] => none
  | r :: rs =>
    match r.err with
    | some e => finStatus (some e)
    | none => loopStatus rs

/-- The `Log` calls that failed, with the error each returned, in trace order. -/
def failedLogs : List Event → List (Message × GoError)
  | [] => []
  | Event.log m (some e) :: es => (m, e) :: failedLogs es
  | _ :: es => failedLogs es

/-- The values returned by the `Name()` calls, in trace order. -/
def nameCalls : List Event → List String
  | [] => []
  | Event.name s :: es => s :: nameCalls es
  | _ :: es => nameCalls es

/-- A trace with the traces of sink failures removed: every `Log` call is
shown as successful, and the `Name()` calls and failed-`Log` diagnostics are
dropped. -/
def withoutSinkFailures : List Event → List Event
  | [] => []
  | Event.log m _ :: es => Event.log m none :: withoutSinkFailures es
  | Event.name _ :: es => withoutSinkFailures es
  | Event.errorf f args :: es =>
    if f = logFailedFmt then withoutSinkFailures es
    else Event.errorf f args :: withoutSinkFailures es
  | Event.read p n err :: es => Event.read p n err :: withoutSinkFailures es
  | Event.now t :: es => Event.now t :: withoutSinkFailures es
  | Event.done :: es => Event.done :: withoutSinkFailures es

/-- The total by which a list of `Run` actions raises the barrier. -/
def added : List RunAction → Int
  | [] => 0
  | RunAction.add d :: as => d + added as
  | RunAction.go _ _ :: as => added as

/-- The workers a list of `Run` actions schedules, in order. -/
def spawned : List RunAction → List (String × Reader)
  | [] => []
  | RunAction.add _ :: as => spawned as
  | RunAction.go name src :: as => (name, src) :: spawned as

/-- The number of scheduled workers that have not terminated. -/
def running (ws : List Worker) : Nat := ws.countP fun wk => wk.status.isNone

/-- A copier with the two sources of the specification's example. -/
def twoSources : Copier Unit :=
  NewCopier "c1"
    [("stdout", [ReadResult.mk [97] none, ReadResult.mk [98] none,
        ReadResult.mk [] (some GoError.EOF)]),
      ("stderr", [ReadResult.mk [101, 114, 114] (some GoError.EOF)])]
    okSink

/-- The invariant of the barrier, for a copier with `n` sources: every source
is either scheduled or still to be scheduled by `Run`, what `Run` has left is
a whole number of `Add(1)`, `go` pairs, possibly after the `go` of a pair
whose `Add(1)` is done, and the counter is the number of workers running plus
one if `Run` stands between an `Add(1)` and its `go`. -/
def BarrierInv {σ : Type} (n : Nat) (s : System σ) : Prop :=
  s.workers.length + (spawned s.todo).length = n ∧
  ∃ rest : List (String × Reader),
    (s.todo = (rest.flatMap fun e => [RunAction.add 1, RunAction.go e.1 e.2]) ∧
      s.c.copyJobs = running s.workers) ∨
    (∃ name src,
      s.todo = RunAction.go name src ::
        (rest.flatMap fun e => [RunAction.add 1, RunAction.go e.1 e.2]) ∧
      s.c.copyJobs = running s.workers + 1)

/-- A schedule for `twoSources`: `Run` runs to its end, then `stderr` is
drained, then `stdout`. -/
def runThenDrain : List Label :=
  [Label.run, Label.run, Label.run, Label.run, Label.worker 1, Label.worker 0,
    Label.worker 0, Label.worker 0]

/-! ## The loop body and the loop, event by event -/

theorem Read_err (r : ReadResult) (p : List Byte) : (Read r p).2.2 = r.err := rfl

theorem Read_count (r : ReadResult) (p : List Byte) :
    (Read r p).2.1 = min r.data.length p.length := rfl

theorem Read_length (r : ReadResult) (p : List Byte) : (Read r p).1.length = p.length := by
  simp only [Read, List.length_append, List.length_take, List.length_drop]
  omega

theorem Read_take (r : ReadResult) (p : List Byte) :
    (Read r p).1.take (Read r p).2.1 = r.data.take p.length := by
  simp only [Read]
  rw [List.take_append_of_le_length (by simp)]
  simp [List.take_take, Nat.min_comm]

theorem forward_eq {σ : Type} (c : Copier σ) (clock : Nat → Time) (name : String)
    (p : List Byte) (n : Nat) (err : Option GoError) (w : World σ) :
    forward c clock name p n err w =
      { sink := fwdSink c clock name p n err w.sink w.ticks,
        ticks := fwdTicks n err w.ticks,
        trace := w.trace ++ fwdEvents c clock name p n err w.sink w.ticks } := by
  unfold forward fwdSink fwdTicks fwdEvents
  by_cases h : err = none ∨ n > 0
  · simp only [h, if_true]
    split <;> simp_all [failEvents]
  · simp [h]

theorem finish_eq {σ : Type} (err : Option GoError) (w : World σ) :
    finish err w = ({ w with trace := w.trace ++ finEvents err }, finStatus err) := by
  unfold finish finEvents finStatus
  cases err with
  | none => simp
  | some e => by_cases h : e = GoError.EOF <;> simp [h]

theorem copyIter_eq {σ : Type} (c : Copier σ) (clock : Nat → Time) (name : String)
    (r : ReadResult) (buf : List Byte) (w : World σ) :
    copyIter c clock name r buf w =
      ((Read r buf).1,
        { sink := fwdSink c clock name (Read r buf).1 (Read r buf).2.1 r.err w.sink w.ticks,
          ticks := fwdTicks (Read r buf).2.1 r.err w.ticks,
          trace := w.trace ++ iterEvents c clock name r buf w.sink w.ticks },
        finStatus r.err) := by
  simp [copyIter, forward_eq, finish_eq, iterEvents, Read_err]

theorem copyLoop_trace {σ : Type} (c : Copier σ) (clock : Nat → Time) (name : String)
    (src : Reader) (buf : List Byte) (w : World σ) :
    (copyLoop c clock name src buf w).1.trace =
      w.trace ++ loopEvents c clock name src buf w.sink w.ticks := by
  induction src generalizing buf w with
  | nil => simp [copyLoop, loopEvents]
  | cons r rs ih =>
    rw [copyLoop, copyIter_eq]
    cases hr : r.err with
    | none => simp [finStatus, loopEvents, hr, ih, List.append_assoc]
    | some e => by_cases he : e = GoError.EOF <;> simp [finStatus, loopEvents, hr, he]

theorem copyLoop_status {σ : Type} (c : Copier σ) (clock : Nat → Time) (name : String)
    (src : Reader) (buf : List Byte) (w : World σ) :
    (copyLoop c clock name src buf w).2 = loopStatus src := by
  induction src generalizing buf w with
  | nil => simp [copyLoop, loopStatus]
  | cons r rs ih =>
    rw [copyLoop, copyIter_eq]
    cases hr : r.err with
    | none => simp [finStatus, loopStatus, hr, ih]
    | some e => by_cases he : e = GoError.EOF <;> simp [finStatus, loopStatus, hr, he]

theorem copySrc_status {σ : Type} (c : Copier σ) (clock : Nat → Time) (name : String)
    (src : Reader) (w : World σ) : (copySrc c clock name src w).2 = loopStatus src := by
  have h := copyLoop_status c clock name src (List.replicate bufSize 0) w
  unfold copySrc deferDone
  split <;> simp_all

theorem copySrc_trace {σ : Type} (c : Copier σ) (clock : Nat → Time) (name : String)
    (src : Reader) (w : World σ) :
    (copySrc c clock name src w).1.trace =
      w.trace ++ (loopEvents c clock name src (List.replicate bufSize 0) w.sink w.ticks ++
        if (loopStatus src).isSome then [Event.done] else []) := by
  have h := copyLoop_status c clock name src (List.replicate bufSize 0) w
  have ht := copyLoop_trace c clock name src (List.replicate bufSize 0) w
  unfold copySrc deferDone
  split
  · rename_i w1 t heq
    rw [heq] at h ht
    simp only at h ht
    simp [← h, ht]
  · rename_i w1 heq
    rw [heq] at h ht
    simp only at h ht
    simp [← h, ht]

theorem loopStatus_append (pre rest : Reader) (hpre : ∀ q ∈ pre, q.err = none) :
    loopStatus (pre ++ rest) = loopStatus rest := by
  induction pre with
  | nil => rfl
  | cons q qs ih =>
    have hq : q.err = none := hpre q (List.mem_cons_self _ _)
    simp only [List.cons_append, loopStatus, hq]
    exact ih fun x hx => hpre x (List.mem_cons_of_mem _ hx)

theorem loopStatus_of_nil_errors (pre : Reader) (hpre : ∀ q ∈ pre, q.err = none) :
    loopStatus pre = none := by
  have h := loopStatus_append pre [] hpre
  simpa [loopStatus] using h

theorem loopEvents_append {σ : Type} (c : Copier σ) (clock : Nat → Time) (name : String)
    (pre : Reader) (hpre : ∀ q ∈ pre, q.err = none) (buf : List Byte) (sink : σ)
    (ticks : Nat) :
    ∃ (buf1 : List Byte) (sink1 : σ) (ticks1 : Nat), buf1.length = buf.length ∧
      ∀ rest : Reader, loopEvents c clock name (pre ++ rest) buf sink ticks =
        loopEvents c clock name pre buf sink ticks ++
          loopEvents c clock name rest buf1 sink1 ticks1 := by
  induction pre generalizing buf sink ticks with
  | nil => exact ⟨buf, sink, ticks, rfl, fun rest => by simp [loopEvents]⟩
  | cons q qs ih =>
    have hq : q.err = none := hpre q (List.mem_cons_self _ _)
    obtain ⟨buf1, sink1, ticks1, hlen, h⟩ :=
      ih (fun x hx => hpre x (List.mem_cons_of_mem _ hx)) (Read q buf).1
        (fwdSink c clock name (Read q buf).1 (Read q buf).2.1 q.err sink ticks)
        (fwdTicks (Read q buf).2.1 q.err ticks)
    refine ⟨buf1, sink1, ticks1, by rw [hlen, Read_length], fun rest => ?_⟩
    have h1 := h rest
    rw [hq] at h1
    simp only [List.cons_append, loopEvents, hq, List.append_assoc, List.append_eq]
    rw [h1]

theorem loopEvents_stop {σ : Type} (c : Copier σ) (clock : Nat → Time) (name : String)
    (r : ReadResult) (rest : Reader) (e : GoError) (he : r.err = some e) (buf : List Byte)
    (sink : σ) (ticks : Nat) :
    loopEvents c clock name (r :: rest) buf sink ticks =
      iterEvents c clock name r buf sink ticks := by
  simp [loopEvents, he]

/-! ## Projections of a trace -/

theorem logged_append (a b : List Event) : logged (a ++ b) = logged a ++ logged b := by
  induction a with
  | nil => rfl
  | cons x xs ih => cases x <;> simp [logged, ih]

theorem readsOf_append (a b : List Event) : readsOf (a ++ b) = readsOf a ++ readsOf b := by
  induction a with
  | nil => rfl
  | cons x xs ih => cases x <;> simp [readsOf, ih]

theorem diagnostics_append (fmt : String) (a b : List Event) :
    diagnostics fmt (a ++ b) = diagnostics fmt a ++ diagnostics fmt b := by
  induction a with
  | nil => rfl
  | cons x xs ih =>
    cases x <;> simp [diagnostics, ih]
    split <;> simp

/-! ## Where an event of the loop comes from -/

theorem isInfix_app_left {α : Type} {b l : List α} (a : List α) (h : b <:+: l) :
    b <:+: a ++ l := by
  obtain ⟨x, y, hxy⟩ := h
  exact ⟨a ++ x, y, by simp [← hxy]⟩

theorem isInfix_app_right {α : Type} {b l : List α} (a : List α) (h : b <:+: l) :
    b <:+: l ++ a := by
  obtain ⟨x, y, hxy⟩ := h
  exact ⟨x, y ++ a, by simp [← hxy]⟩

theorem iter_of_mem_loopEvents {σ : Type} (c : Copier σ) (clock : Nat → Time) (name : String)
    (src : Reader) (buf : List Byte) (sink : σ) (ticks : Nat) (ev : Event)
    (h : ev ∈ loopEvents c clock name src buf sink ticks) :
    ∃ r ∈ src, ∃ (buf0 : List Byte) (sink0 : σ) (ticks0 : Nat),
      buf0.length = buf.length ∧ ticks ≤ ticks0 ∧
      ev ∈ iterEvents c clock name r buf0 sink0 ticks0 ∧
      iterEvents c clock name r buf0 sink0 ticks0 <:+:
        loopEvents c clock name src buf sink ticks := by
  induction src generalizing buf sink ticks with
  | nil => simp [loopEvents] at h
  | cons q qs ih =>
    rw [loopEvents, List.mem_append] at h
    rcases h with h | h
    · exact ⟨q, List.mem_cons_self _ _, buf, sink, ticks, rfl, le_refl _, h, by
        rw [loopEvents]; exact isInfix_app_right _ ⟨[], [], by simp⟩⟩
    · cases hq : q.err with
      | some e => simp [hq] at h
      | none =>
        rw [hq] at h
        simp only at h
        obtain ⟨r, hr, buf0, sink0, ticks0, hlen, hle, hmem, hinf⟩ := ih _ _ _ h
        refine ⟨r, List.mem_cons_of_mem _ hr, buf0, sink0, ticks0, ?_, ?_, hmem, ?_⟩
        · rw [hlen, Read_length]
        · refine le_trans ?_ hle
          unfold fwdTicks; split <;> omega
        · rw [loopEvents, hq]
          exact isInfix_app_left _ hinf

theorem log_not_mem_finEvents (m : Message) (res : Option GoError) (err : Option GoError) :
    Event.log m res ∉ finEvents err := by
  unfold finEvents; split
  · simp
  · split <;> simp

theorem log_not_mem_failEvents (m : Message) (res : Option GoError) (line : List Byte)
    (s : String) (o : Option GoError) : Event.log m res ∉ failEvents line s o := by
  cases o <;> simp [failEvents]

theorem log_of_mem_iterEvents {σ : Type} (c : Copier σ) (clock : Nat → Time) (name : String)
    (r : ReadResult) (buf : List Byte) (sink : σ) (ticks : Nat) (m : Message)
    (res : Option GoError) (h : Event.log m res ∈ iterEvents c clock name r buf sink ticks) :
    (r.err = none ∨ 0 < (Read r buf).2.1) ∧
      m = { ContainerID := c.cid, Line := (Read r buf).1.take (Read r buf).2.1, Source := name,
            Timestamp := (clock ticks).UTC } ∧
      [Event.read (Read r buf).1 (Read r buf).2.1 r.err, Event.now (clock ticks),
        Event.log m res] <+: iterEvents c clock name r buf sink ticks := by
  unfold iterEvents fwdEvents at h ⊢
  by_cases hc : r.err = none ∨ (Read r buf).2.1 > 0
  · simp only [hc, if_true] at h ⊢
    simp only [List.mem_cons, List.mem_append, log_not_mem_finEvents, log_not_mem_failEvents,
      or_false, false_or, reduceCtorEq, Event.log.injEq] at h
    obtain ⟨h1, h2⟩ := h
    subst h1 h2
    exact ⟨trivial, rfl, ⟨_, rfl⟩⟩
  · simp only [hc, if_false] at h
    simp [log_not_mem_finEvents] at h

theorem done_not_mem_loopEvents {σ : Type} (c : Copier σ) (clock : Nat → Time)
    (name : String) (src : Reader) (buf : List Byte) (sink : σ) (ticks : Nat) :
    Event.done ∉ loopEvents c clock name src buf sink ticks := by
  intro h
  obtain ⟨r, _, buf0, sink0, ticks0, _, _, hmem, _⟩ :=
    iter_of_mem_loopEvents c clock name src buf sink ticks _ h
  unfold iterEvents fwdEvents finEvents at hmem
  simp only [List.mem_cons, List.mem_append, reduceCtorEq, false_or] at hmem
  rcases hmem with hmem | hmem
  · split at hmem
    · simp only [List.mem_cons, reduceCtorEq, false_or] at hmem
      revert hmem
      cases (c.dst.Log sink0 _).2 <;> simp [failEvents]
    · simp at hmem
  · split at hmem
    · simp at hmem
    · split at hmem <;> simp at hmem

theorem logged_failEvents (line : List Byte) (s : String) (o : Option GoError) :
    logged (failEvents line s o) = [] := by
  cases o <;> simp [failEvents, logged]

theorem logged_finEvents (err : Option GoError) : logged (finEvents err) = [] := by
  unfold finEvents; split
  · rfl
  · split <;> simp [logged]

theorem logged_chunks {σ : Type} (c : Copier σ) (clock : Nat → Time) (name : String)
    (cs : List (List Byte)) (buf : List Byte) (sink : σ) (ticks : Nat)
    (hbuf : buf.length = bufSize) (h : ∀ ch ∈ cs, 0 < ch.length ∧ ch.length ≤ bufSize) :
    (logged (loopEvents c clock name (cs.map fun ch => ReadResult.mk ch none) buf sink
      ticks)).map Message.Line = cs := by
  induction cs generalizing buf sink ticks with
  | nil => simp [loopEvents, logged]
  | cons ch rest ih =>
    have hch := h ch (List.mem_cons_self _ _)
    have hrest := ih (Read (ReadResult.mk ch none) buf).1
      (fwdSink c clock name (Read (ReadResult.mk ch none) buf).1
        (Read (ReadResult.mk ch none) buf).2.1 none sink ticks)
      (fwdTicks (Read (ReadResult.mk ch none) buf).2.1 none ticks)
      (by rw [Read_length, hbuf]) (fun x hx => h x (List.mem_cons_of_mem _ hx))
    have htake : List.take (Read (ReadResult.mk ch none) buf).2.1
        (Read (ReadResult.mk ch none) buf).1 = ch := by
      rw [Read_take, hbuf]
      exact List.take_of_length_le hch.2
    simp only [List.map_cons, loopEvents, iterEvents, fwdEvents, logged_append, logged,
      true_or, if_true, logged_failEvents, logged_finEvents, List.append_nil, List.cons_append,
      List.nil_append, List.map_cons, hrest, htake, List.append_eq]

theorem fmt_ne : logFailedFmt ≠ scanErrorFmt := by decide

theorem diagnostics_scan_failEvents (line : List Byte) (s : String) (o : Option GoError) :
    diagnostics scanErrorFmt (failEvents line s o) = [] := by
  cases o <;> simp [failEvents, diagnostics, fmt_ne]

theorem diagnostics_scan_loopEvents {σ : Type} (c : Copier σ) (clock : Nat → Time)
    (name : String) (pre : Reader) (hpre : ∀ q ∈ pre, q.err = none) (buf : List Byte)
    (sink : σ) (ticks : Nat) :
    diagnostics scanErrorFmt (loopEvents c clock name pre buf sink ticks) = [] ∧
      (readsOf (loopEvents c clock name pre buf sink ticks)).length = pre.length := by
  induction pre generalizing buf sink ticks with
  | nil => simp [loopEvents, diagnostics, readsOf]
  | cons q qs ih =>
    have hq : q.err = none := hpre q (List.mem_cons_self _ _)
    have hrest := ih (fun x hx => hpre x (List.mem_cons_of_mem _ hx)) (Read q buf).1
      (fwdSink c clock name (Read q buf).1 (Read q buf).2.1 none sink ticks)
      (fwdTicks (Read q buf).2.1 none ticks)
    have hfail : ∀ (line : List Byte) (s : String) (o : Option GoError),
        readsOf (failEvents line s o) = [] := by
      intro line s o; cases o <;> simp [failEvents, readsOf]
    simp only [loopEvents, iterEvents, fwdEvents, hq, finEvents, true_or, if_true,
      List.append_nil, List.cons_append, diagnostics, readsOf, diagnostics_append,
      readsOf_append, diagnostics_scan_failEvents, hfail, hrest.1, hrest.2, List.nil_append,
      List.length_cons, List.append_eq, and_self]

theorem copyLoop_stop {σ : Type} (c : Copier σ) (clock : Nat → Time) (name : String)
    (pre : Reader) (r : ReadResult) (rest : Reader) (e : GoError)
    (hpre : ∀ q ∈ pre, q.err = none) (he : r.err = some e) (buf : List Byte) (w : World σ) :
    copyLoop c clock name (pre ++ r :: rest) buf w = copyLoop c clock name (pre ++ [r]) buf w := by
  induction pre generalizing buf w with
  | nil =>
    simp only [List.nil_append, copyLoop, copyIter_eq]
    by_cases hE : e = GoError.EOF <;> simp [he, finStatus, hE]
  | cons q qs ih =>
    have hq : q.err = none := hpre q (List.mem_cons_self _ _)
    simp only [List.cons_append, copyLoop, copyIter_eq, hq, finStatus]
    exact ih (fun x hx => hpre x (List.mem_cons_of_mem _ hx)) _ _

theorem loopStatus_isSome (src : Reader) (h : ∃ r ∈ src, r.err ≠ none) :
    ∃ t, loopStatus src = some t := by
  induction src with
  | nil => simp at h
  | cons q qs ih =>
    cases hq : q.err with
    | some e =>
      by_cases hE : e = GoError.EOF
      · exact ⟨Terminal.Ended, by simp [loopStatus, hq, finStatus, hE]⟩
      · exact ⟨Terminal.Errored, by simp [loopStatus, hq, finStatus, hE]⟩
    | none =>
      obtain ⟨r, hr, hne⟩ := h
      rcases List.mem_cons.1 hr with rfl | hr
      · exact absurd hq hne
      · obtain ⟨t, ht⟩ := ih ⟨r, hr, hne⟩
        exact ⟨t, by simp [loopStatus, hq, ht]⟩

/-! ## Two sinks on the same source -/

theorem withoutSinkFailures_append (a b : List Event) :
    withoutSinkFailures (a ++ b) = withoutSinkFailures a ++ withoutSinkFailures b := by
  induction a with
  | nil => rfl
  | cons x xs ih =>
    cases x <;> simp [withoutSinkFailures, ih]
    split <;> simp

theorem readsOf_withoutSinkFailures (a : List Event) :
    readsOf (withoutSinkFailures a) = readsOf a := by
  induction a with
  | nil => rfl
  | cons x xs ih =>
    cases x <;> simp [withoutSinkFailures, readsOf, ih]
    split <;> simp [readsOf, ih]

theorem logged_withoutSinkFailures (a : List Event) :
    logged (withoutSinkFailures a) = logged a := by
  induction a with
  | nil => rfl
  | cons x xs ih =>
    cases x <;> simp [withoutSinkFailures, logged, ih]
    split <;> simp [logged, ih]

theorem failedLogs_append (a b : List Event) :
    failedLogs (a ++ b) = failedLogs a ++ failedLogs b := by
  induction a with
  | nil => rfl
  | cons x xs ih =>
    cases x with
    | log m res => cases res <;> simp [failedLogs, ih]
    | _ => simp [failedLogs, ih]

theorem nameCalls_append (a b : List Event) :
    nameCalls (a ++ b) = nameCalls a ++ nameCalls b := by
  induction a with
  | nil => rfl
  | cons x xs ih => cases x <;> simp [nameCalls, ih]

theorem withoutSinkFailures_finEvents (err : Option GoError) :
    withoutSinkFailures (finEvents err) = finEvents err := by
  have h : scanErrorFmt ≠ logFailedFmt := fun h => fmt_ne h.symm
  unfold finEvents; split
  · rfl
  · split <;> simp [withoutSinkFailures, h]

theorem withoutSinkFailures_failEvents (line : List Byte) (s : String) (o : Option GoError) :
    withoutSinkFailures (failEvents line s o) = [] := by
  cases o <;> simp [failEvents, withoutSinkFailures]

theorem loopEvents_withoutSinkFailures {σ τ : Type} (c1 : Copier σ) (c2 : Copier τ)
    (clock : Nat → Time) (name : String) (hcid : c1.cid = c2.cid)
    (hok : ∀ s m, (c1.dst.Log s m).2 = none) (src : Reader) (buf : List Byte) (sink1 : σ)
    (sink2 : τ) (ticks : Nat) :
    loopEvents c1 clock name src buf sink1 ticks =
      withoutSinkFailures (loopEvents c2 clock name src buf sink2 ticks) := by
  induction src generalizing buf sink1 sink2 ticks with
  | nil => rfl
  | cons q qs ih =>
    simp only [loopEvents, withoutSinkFailures_append]
    have hiter : iterEvents c1 clock name q buf sink1 ticks =
        withoutSinkFailures (iterEvents c2 clock name q buf sink2 ticks) := by
      unfold iterEvents fwdEvents
      by_cases hc : q.err = none ∨ (Read q buf).2.1 > 0
      · have hnone : ∀ (line : List Byte) (s : String), failEvents line s none = [] :=
          fun _ _ => rfl
        simp only [hc, if_true, withoutSinkFailures, withoutSinkFailures_append,
          List.cons_append, withoutSinkFailures_finEvents, withoutSinkFailures_failEvents,
          hok, hnone, hcid, List.nil_append]
      · simp only [hc, if_false, withoutSinkFailures, withoutSinkFailures_append,
          List.cons_append, withoutSinkFailures_finEvents, List.nil_append]
    rw [hiter]
    cases hq : q.err with
    | some e => rfl
    | none =>
      simp only
      rw [ih]

theorem diagnostics_failed_loopEvents {σ : Type} (c : Copier σ) (clock : Nat → Time)
    (name : String) (src : Reader) (buf : List Byte) (sink : σ) (ticks : Nat) :
    (nameCalls (loopEvents c clock name src buf sink ticks)).length =
        (failedLogs (loopEvents c clock name src buf sink ticks)).length ∧
      diagnostics logFailedFmt (loopEvents c clock name src buf sink ticks) =
        List.zipWith (fun f s => [Arg.bytes f.1.Line, Arg.str s, Arg.err f.2])
          (failedLogs (loopEvents c clock name src buf sink ticks))
          (nameCalls (loopEvents c clock name src buf sink ticks)) := by
  have hne : scanErrorFmt ≠ logFailedFmt := fun h => fmt_ne h.symm
  have hfin : ∀ err, nameCalls (finEvents err) = [] ∧ failedLogs (finEvents err) = [] ∧
      diagnostics logFailedFmt (finEvents err) = [] := by
    intro err
    unfold finEvents; split
    · exact ⟨rfl, rfl, rfl⟩
    · split <;> simp [nameCalls, failedLogs, diagnostics, hne]
  induction src generalizing buf sink ticks with
  | nil => simp [loopEvents, nameCalls, failedLogs, diagnostics]
  | cons q qs ih =>
    have hiter : (nameCalls (iterEvents c clock name q buf sink ticks)).length =
          (failedLogs (iterEvents c clock name q buf sink ticks)).length ∧
        diagnostics logFailedFmt (iterEvents c clock name q buf sink ticks) =
          List.zipWith (fun f s => [Arg.bytes f.1.Line, Arg.str s, Arg.err f.2])
            (failedLogs (iterEvents c clock name q buf sink ticks))
            (nameCalls (iterEvents c clock name q buf sink ticks)) := by
      unfold iterEvents fwdEvents
      by_cases hc : q.err = none ∨ (Read q buf).2.1 > 0
      · simp only [hc, if_true]
        cases hres : (c.dst.Log sink
            { ContainerID := c.cid, Line := List.take (Read q buf).2.1 (Read q buf).1,
              Source := name, Timestamp := (clock ticks).UTC }).2 <;>
          simp [nameCalls, failedLogs, diagnostics, failEvents, nameCalls_append,
            failedLogs_append, diagnostics_append, hfin]
      · simp [hc, nameCalls, failedLogs, diagnostics, hfin]
    rw [loopEvents]
    cases hq : q.err with
    | some e => simpa using hiter
    | none =>
      simp only
      obtain ⟨h1, h2⟩ := ih (Read q buf).1
        (fwdSink c clock name (Read q buf).1 (Read q buf).2.1 q.err sink ticks)
        (fwdTicks (Read q buf).2.1 q.err ticks)
      rw [hq] at h1 h2
      refine ⟨?_, ?_⟩
      · simp only [nameCalls_append, failedLogs_append, List.length_append, hiter.1, h1]
      · rw [diagnostics_append, nameCalls_append, failedLogs_append,
          List.zipWith_append _ _ _ _ _ hiter.1.symm, hiter.2, h2]

theorem diagnostics_withoutSinkFailures (a : List Event) :
    diagnostics logFailedFmt (withoutSinkFailures a) = [] := by
  induction a with
  | nil => rfl
  | cons x xs ih =>
    cases x <;> simp [withoutSinkFailures, diagnostics, ih]
    split <;> simp_all [diagnostics]

theorem tail_done_projections (b : Bool) :
    withoutSinkFailures (if b = true then [Event.done] else []) =
        (if b = true then [Event.done] else []) ∧
      nameCalls (if b = true then [Event.done] else []) = [] ∧
      failedLogs (if b = true then [Event.done] else []) = [] ∧
      diagnostics logFailedFmt (if b = true then [Event.done] else []) = [] := by
  cases b <;> simp [withoutSinkFailures, nameCalls, failedLogs, diagnostics]

/-! ## Which reads emit a message -/

theorem readsOf_failEvents (line : List Byte) (s : String) (o : Option GoError) :
    readsOf (failEvents line s o) = [] := by
  cases o <;> simp [failEvents, readsOf]

theorem readsOf_finEvents (err : Option GoError) : readsOf (finEvents err) = [] := by
  unfold finEvents; split
  · rfl
  · split <;> simp [readsOf]

theorem read_not_mem_tail {σ : Type} (c : Copier σ) (clock : Nat → Time) (name : String)
    (p0 : List Byte) (n0 : Nat) (err0 : Option GoError) (sink : σ) (ticks : Nat)
    (p : List Byte) (n : Nat) (err : Option GoError) (fin : Option GoError) :
    Event.read p n err ∉ fwdEvents c clock name p0 n0 err0 sink ticks ++ finEvents fin := by
  intro h
  rcases List.mem_append.1 h with h | h
  · unfold fwdEvents at h
    split at h
    · simp only [List.mem_cons, reduceCtorEq, false_or] at h
      revert h
      cases (c.dst.Log sink _).2 <;> simp [failEvents]
    · simp at h
  · unfold finEvents at h
    split at h
    · simp at h
    · split at h <;> simp at h

theorem take_read_length (r : ReadResult) (buf : List Byte) :
    ((Read r buf).1.take (Read r buf).2.1).length = (Read r buf).2.1 := by
  simp only [List.length_take, Read_length, Read_count]
  omega

theorem emitted_of_read_mem_iterEvents {σ : Type} (c : Copier σ) (clock : Nat → Time)
    (name : String) (r : ReadResult) (buf : List Byte) (sink : σ) (ticks : Nat)
    (p : List Byte) (n : Nat) (err : Option GoError)
    (h : Event.read p n err ∈ iterEvents c clock name r buf sink ticks)
    (hc : err = none ∨ 0 < n) :
    ∃ (t : Time) (m : Message) (res : Option GoError),
      [Event.read p n err, Event.now t, Event.log m res] <+:
        iterEvents c clock name r buf sink ticks ∧ m.Line.length = n := by
  unfold iterEvents at h
  rcases List.mem_cons.1 h with h | h
  · injection h with h1 h2 h3
    subst h1 h2 h3
    have hc2 : r.err = none ∨ (Read r buf).2.1 > 0 := hc
    refine ⟨clock ticks,
      { ContainerID := c.cid, Line := (Read r buf).1.take (Read r buf).2.1, Source := name,
        Timestamp := (clock ticks).UTC },
      (c.dst.Log sink
        { ContainerID := c.cid, Line := (Read r buf).1.take (Read r buf).2.1, Source := name,
          Timestamp := (clock ticks).UTC }).2, ?_, take_read_length r buf⟩
    unfold iterEvents fwdEvents
    simp only [hc2, if_true]
    exact ⟨_, rfl⟩
  · exact absurd h (read_not_mem_tail c clock name _ _ _ _ _ _ _ _ _)

theorem line_lengths_iterEvents {σ : Type} (c : Copier σ) (clock : Nat → Time)
    (name : String) (r : ReadResult) (buf : List Byte) (sink : σ) (ticks : Nat) :
    (logged (iterEvents c clock name r buf sink ticks)).map (fun m => m.Line.length) =
      ((readsOf (iterEvents c clock name r buf sink ticks)).filter
        fun x => decide (x.2 = none ∨ 0 < x.1)).map Prod.fst := by
  unfold iterEvents fwdEvents
  by_cases hc : r.err = none ∨ (Read r buf).2.1 > 0
  · simp only [hc, if_true, logged, readsOf, logged_append, readsOf_append,
      logged_failEvents, logged_finEvents, readsOf_failEvents, readsOf_finEvents,
      List.append_nil, List.cons_append, List.map_cons, List.map_nil, take_read_length]
    rw [List.filter_cons_of_pos (by simpa using hc)]
    rfl
  · simp only [hc, if_false, logged, readsOf, logged_finEvents, readsOf_finEvents,
      List.nil_append, List.map_nil]
    rw [List.filter_cons_of_neg (by simpa using hc)]
    rfl

theorem line_lengths_loopEvents {σ : Type} (c : Copier σ) (clock : Nat → Time)
    (name : String) (src : Reader) (buf : List Byte) (sink : σ) (ticks : Nat) :
    (logged (loopEvents c clock name src buf sink ticks)).map (fun m => m.Line.length) =
      ((readsOf (loopEvents c clock name src buf sink ticks)).filter
        fun x => decide (x.2 = none ∨ 0 < x.1)).map Prod.fst := by
  induction src generalizing buf sink ticks with
  | nil => rfl
  | cons q qs ih =>
    rw [loopEvents, logged_append, readsOf_append, List.filter_append, List.map_append,
      List.map_append, line_lengths_iterEvents]
    cases hq : q.err with
    | some e => rfl
    | none =>
      simp only
      rw [ih]

/-! ## The claims about one worker -/

/-- Claim C1 (no drop on combined signal).  When the worker reaches a read
that returns a positive byte count together with an error `e` (`io.EOF` or
any other), what it does from that read on is exactly: the read, one clock
sample, one `Log` call whose message carries the first `n` bytes of the
buffer, the diagnostic of that call if it failed, then the read-error
diagnostic unless `e` is `io.EOF`, then the deferred `Done`.  So the chunk is
forwarded exactly once and before the error is acted upon. -/
theorem no_drop_on_combined_signal {σ : Type} (c : Copier σ) (clock : Nat → Time)
    (name : String) (pre : Reader) (r : ReadResult) (rest : Reader) (w : World σ)
    (e : GoError) (hpre : ∀ q ∈ pre, q.err = none) (hn : 0 < r.data.length)
    (he : r.err = some e) :
    ∃ (p : List Byte) (n : Nat) (t : Time) (res : Option GoError) (diag : List Event),
      (copySrc c clock name (pre ++ r :: rest) w).1.trace =
        (copySrc c clock name pre w).1.trace ++
          [Event.read p n (some e), Event.now t,
            Event.log
              { ContainerID := c.cid, Line := p.take n, Source := name, Timestamp := t.UTC }
              res] ++
          diag ++ (if e = GoError.EOF then [] else [Event.errorf scanErrorFmt [Arg.err e]]) ++
          [Event.done] ∧
      n = min r.data.length bufSize ∧ 0 < n ∧ p.take n = r.data.take bufSize ∧
      (res = none → diag = []) ∧
      (∀ logErr, res = some logErr → ∃ s, diag =
        [Event.name s, Event.errorf logFailedFmt [Arg.bytes (p.take n), Arg.str s, Arg.err logErr]]) := by
  obtain ⟨buf1, sink1, ticks1, hlen, h⟩ :=
    loopEvents_append c clock name pre hpre (List.replicate bufSize 0) w.sink w.ticks
  have hlen1 : buf1.length = bufSize := by simpa using hlen
  have hst : loopStatus (pre ++ r :: rest) = finStatus (some e) := by
    rw [loopStatus_append pre _ hpre]; simp [loopStatus, he]
  have hpos : 0 < (Read r buf1).2.1 := by
    rw [Read_count, hlen1]; simp [bufSize]; exact hn
  refine ⟨(Read r buf1).1, (Read r buf1).2.1, clock ticks1,
    (c.dst.Log sink1
      { ContainerID := c.cid, Line := (Read r buf1).1.take (Read r buf1).2.1, Source := name,
        Timestamp := (clock ticks1).UTC }).2,
    failEvents ((Read r buf1).1.take (Read r buf1).2.1)
      (c.dst.Name (c.dst.Log sink1
        { ContainerID := c.cid, Line := (Read r buf1).1.take (Read r buf1).2.1, Source := name,
          Timestamp := (clock ticks1).UTC }).1)
      (c.dst.Log sink1
        { ContainerID := c.cid, Line := (Read r buf1).1.take (Read r buf1).2.1, Source := name,
          Timestamp := (clock ticks1).UTC }).2, ?_, ?_, hpos, ?_, ?_, ?_⟩
  · rw [copySrc_trace, copySrc_trace, h, loopEvents_stop c clock name r rest e he, hst,
      loopStatus_of_nil_errors pre hpre]
    have hfin : finEvents (some e) =
        if e = GoError.EOF then [] else [Event.errorf scanErrorFmt [Arg.err e]] := by
      by_cases hE : e = GoError.EOF <;> simp [finEvents, hE]
    have hsome : (finStatus (some e)).isSome = true := by
      by_cases hE : e = GoError.EOF <;> simp [finStatus, hE]
    simp [iterEvents, fwdEvents, hpos, he, hfin, hsome]
  · rw [Read_count, hlen1]
  · rw [Read_take, hlen1]
  · intro hres; simp [hres, failEvents]
  · intro logErr hres; simp [hres, failEvents]

/-- Witness for C1: a source whose only read returns `"hi"` together with
`io.EOF`, on a sink that accepts everything. -/
theorem no_drop_on_combined_signal_witness :
    (∀ q ∈ ([] : Reader), q.err = none) ∧
    0 < (ReadResult.mk [104, 105] (some GoError.EOF)).data.length ∧
    ∃ (p : List Byte) (n : Nat) (t : Time) (res : Option GoError) (diag : List Event),
      (copySrc (NewCopier "c1" [] okSink) tickClock "stderr"
          ([] ++ ReadResult.mk [104, 105] (some GoError.EOF) :: []) (World.fresh ())).1.trace =
        (copySrc (NewCopier "c1" [] okSink) tickClock "stderr" [] (World.fresh ())).1.trace ++
          [Event.read p n (some GoError.EOF), Event.now t,
            Event.log
              { ContainerID := (NewCopier "c1" [] okSink).cid, Line := p.take n,
                Source := "stderr", Timestamp := t.UTC }
              res] ++
          diag ++
          (if GoError.EOF = GoError.EOF then []
            else [Event.errorf scanErrorFmt [Arg.err GoError.EOF]]) ++
          [Event.done] ∧
      n = min (ReadResult.mk [104, 105] (some GoError.EOF)).data.length bufSize ∧ 0 < n ∧
      p.take n = (ReadResult.mk [104, 105] (some GoError.EOF)).data.take bufSize ∧
      (res = none → diag = []) ∧
      (∀ logErr, res = some logErr → ∃ s, diag =
        [Event.name s,
          Event.errorf logFailedFmt [Arg.bytes (p.take n), Arg.str s, Arg.err logErr]]) :=
  ⟨by simp, by decide,
    no_drop_on_combined_signal (NewCopier "c1" [] okSink) tickClock "stderr" []
      (ReadResult.mk [104, 105] (some GoError.EOF)) [] (World.fresh ()) GoError.EOF
      (by simp) (by decide) rfl⟩

/-- Claim C2 (completeness and per-source FIFO).  For a source that returns the
chunks `cs` one per read, each with a nil error, and then `(0, io.EOF)`, the
lines handed to the sink are exactly `cs`, in read order, and all of them
precede the deferred `Done`, which is the last thing the worker does. -/
theorem completeness_and_fifo {σ : Type} (c : Copier σ) (clock : Nat → Time) (name : String)
    (cs : List (List Byte)) (w : World σ)
    (h : ∀ ch ∈ cs, 0 < ch.length ∧ ch.length ≤ bufSize) :
    ∃ evs : List Event,
      (copySrc c clock name
          ((cs.map fun ch => ReadResult.mk ch none) ++ [ReadResult.mk [] (some GoError.EOF)])
          w).1.trace = w.trace ++ evs ++ [Event.done] ∧
      (logged evs).map Message.Line = cs ∧ Event.done ∉ evs ∧
      (copySrc c clock name
          ((cs.map fun ch => ReadResult.mk ch none) ++ [ReadResult.mk [] (some GoError.EOF)])
          w).2 = some Terminal.Ended := by
  have hpre : ∀ q ∈ cs.map (fun ch => ReadResult.mk ch none), q.err = none := by
    intro q hq
    obtain ⟨ch, _, rfl⟩ := List.mem_map.1 hq
    rfl
  have hst : loopStatus ((cs.map fun ch => ReadResult.mk ch none) ++
      [ReadResult.mk [] (some GoError.EOF)]) = some Terminal.Ended := by
    rw [loopStatus_append _ _ hpre]; simp [loopStatus, finStatus]
  refine ⟨loopEvents c clock name
      ((cs.map fun ch => ReadResult.mk ch none) ++ [ReadResult.mk [] (some GoError.EOF)])
      (List.replicate bufSize 0) w.sink w.ticks, ?_, ?_, done_not_mem_loopEvents _ _ _ _ _ _ _,
    ?_⟩
  · rw [copySrc_trace, hst]; simp
  · obtain ⟨buf1, sink1, ticks1, _, happ⟩ :=
      loopEvents_append c clock name _ hpre (List.replicate bufSize 0) w.sink w.ticks
    rw [happ, logged_append, List.map_append,
      logged_chunks c clock name cs _ _ _ (by simp) h]
    simp [loopEvents, iterEvents, fwdEvents, finEvents, logged, Read_count]
  · rw [copySrc_status, hst]

/-- Witness for C2: the source of the specification's example, `"a"`, `"b"`,
then a clean end of stream. -/
theorem completeness_and_fifo_witness :
    (∀ ch ∈ ([[97], [98]] : List (List Byte)), 0 < ch.length ∧ ch.length ≤ bufSize) ∧
    ∃ evs : List Event,
      (copySrc (NewCopier "c1" [] badSink) tickClock "stdout"
          ((([[97], [98]] : List (List Byte)).map fun ch => ReadResult.mk ch none) ++
            [ReadResult.mk [] (some GoError.EOF)])
          (World.fresh 0)).1.trace = (World.fresh 0 : World Nat).trace ++ evs ++ [Event.done] ∧
      (logged evs).map Message.Line = [[97], [98]] ∧ Event.done ∉ evs ∧
      (copySrc (NewCopier "c1" [] badSink) tickClock "stdout"
          ((([[97], [98]] : List (List Byte)).map fun ch => ReadResult.mk ch none) ++
            [ReadResult.mk [] (some GoError.EOF)])
          (World.fresh 0)).2 = some Terminal.Ended :=
  ⟨by simp [bufSize],
    completeness_and_fifo (NewCopier "c1" [] badSink) tickClock "stdout" [[97], [98]]
      (World.fresh 0) (by simp [bufSize])⟩

/-- Counterexample to C4 as stated: a read that returns zero bytes and a nil
error makes the worker hand the sink a message with an empty line. -/
theorem empty_message_on_empty_read :
    logged (copySrc (NewCopier "c1" [] okSink) tickClock "stdout" [ReadResult.mk [] none]
        (World.fresh ())).1.trace =
      [{ ContainerID := "c1", Line := [], Source := "stdout",
         Timestamp := { instant := 0, loc := Location.UTC } }] ∧
    ¬ ∀ m ∈ logged (copySrc (NewCopier "c1" [] okSink) tickClock "stdout"
        [ReadResult.mk [] none] (World.fresh ())).1.trace, 1 ≤ m.Line.length := by
  have h : logged (copySrc (NewCopier "c1" [] okSink) tickClock "stdout"
      [ReadResult.mk [] none] (World.fresh ())).1.trace =
      [{ ContainerID := "c1", Line := [], Source := "stdout",
         Timestamp := { instant := 0, loc := Location.UTC } }] := by
    rw [copySrc_trace]
    simp [loopEvents, iterEvents, fwdEvents, finEvents, failEvents, loopStatus, logged,
      World.fresh, Read_count, okSink, NewCopier, tickClock, Time.UTC]
  refine ⟨h, ?_⟩
  rw [h]
  simp

/-- Claim C4, amended.  The worker hands the sink a message exactly after a
read that returned a nil error or at least one byte.  Every message directly
follows the clock sample that directly follows the read that produced it,
and its line has as many bytes as that read returned; every read that
returned a nil error or at least one byte is directly followed by a clock
sample and a message of that many bytes; and the line lengths of the
messages, in order, are the byte counts of exactly those reads, in order.
So a read of zero bytes with a nil error emits a message with an empty line,
a read of zero bytes with an error emits nothing, and every other message
has a line of at least one byte. -/
theorem message_length_is_read_count {σ : Type} (c : Copier σ) (clock : Nat → Time)
    (name : String) (src : Reader) (w : World σ) :
    ∃ evs : List Event,
      (copySrc c clock name src w).1.trace = w.trace ++ evs ∧
      (∀ m res, Event.log m res ∈ evs →
        ∃ (p : List Byte) (n : Nat) (err : Option GoError) (t : Time),
          [Event.read p n err, Event.now t, Event.log m res] <:+: evs ∧
          m.Line.length = n ∧ (err = none ∨ 0 < n)) ∧
      (∀ p n err, Event.read p n err ∈ evs → (err = none ∨ 0 < n) →
        ∃ (t : Time) (m : Message) (res : Option GoError),
          [Event.read p n err, Event.now t, Event.log m res] <:+: evs ∧
          m.Line.length = n) ∧
      (logged evs).map (fun m => m.Line.length) =
        ((readsOf evs).filter fun x => decide (x.2 = none ∨ 0 < x.1)).map Prod.fst := by
  refine ⟨_, copySrc_trace c clock name src w, ?_, ?_, ?_⟩
  · intro m res hmem
    rw [List.mem_append] at hmem
    rcases hmem with hmem | hmem
    · obtain ⟨r, _, buf0, sink0, ticks0, _, _, hin, hinf⟩ :=
        iter_of_mem_loopEvents c clock name src _ _ _ _ hmem
      obtain ⟨hcond, hm, hpre⟩ :=
        log_of_mem_iterEvents c clock name r buf0 sink0 ticks0 m res hin
      refine ⟨_, _, _, _, isInfix_app_right _ (hpre.isInfix.trans hinf), ?_, hcond⟩
      rw [hm]
      exact take_read_length r buf0
    · split at hmem <;> simp at hmem
  · intro p n err hmem hc
    rw [List.mem_append] at hmem
    rcases hmem with hmem | hmem
    · obtain ⟨r, _, buf0, sink0, ticks0, _, _, hin, hinf⟩ :=
        iter_of_mem_loopEvents c clock name src _ _ _ _ hmem
      obtain ⟨t, m, res, hpre, hlen⟩ :=
        emitted_of_read_mem_iterEvents c clock name r buf0 sink0 ticks0 p n err hin hc
      exact ⟨t, m, res, isInfix_app_right _ (hpre.isInfix.trans hinf), hlen⟩
    · split at hmem <;> simp at hmem
  · have htail : logged (if (loopStatus src).isSome = true then [Event.done] else []) = [] ∧
        readsOf (if (loopStatus src).isSome = true then [Event.done] else []) = [] := by
      split <;> simp [logged, readsOf]
    rw [logged_append, readsOf_append, htail.1, htail.2, List.append_nil, List.append_nil]
    exact line_lengths_loopEvents c clock name src _ _ _

/-- Witness for C4: a read of zero bytes with a nil error, a read of one byte,
then a read of zero bytes with `io.EOF`; the messages have 0 and 1 bytes. -/
theorem message_length_is_read_count_witness :
    (readsOf (copySrc (NewCopier "c1" [] okSink) tickClock "stdout"
        [ReadResult.mk [] none, ReadResult.mk [97] none, ReadResult.mk [] (some GoError.EOF)]
        (World.fresh ())).1.trace).map Prod.fst = [0, 1, 0] ∧
    ∃ evs : List Event,
      (copySrc (NewCopier "c1" [] okSink) tickClock "stdout"
        [ReadResult.mk [] none, ReadResult.mk [97] none, ReadResult.mk [] (some GoError.EOF)]
        (World.fresh ())).1.trace = (World.fresh () : World Unit).trace ++ evs ∧
      (logged evs).map (fun m => m.Line.length) =
        ((readsOf evs).filter fun x => decide (x.2 = none ∨ 0 < x.1)).map Prod.fst := by
  refine ⟨?_, ?_⟩
  · have hb : min 1 bufSize = 1 := by decide
    have hlen : (List.replicate bufSize (0 : Byte)).length = bufSize := List.length_replicate _ _
    rw [copySrc_trace]
    generalize List.replicate bufSize (0 : Byte) = buf at hlen ⊢
    simp [loopEvents, iterEvents, fwdEvents, finEvents, failEvents, loopStatus, finStatus,
      readsOf, readsOf_append, World.fresh, Read_count, Read_length, okSink, NewCopier, hb,
      hlen]
  · obtain ⟨evs, h1, _, _, h4⟩ :=
      message_length_is_read_count (NewCopier "c1" [] okSink) tickClock "stdout"
        [ReadResult.mk [] none, ReadResult.mk [97] none, ReadResult.mk [] (some GoError.EOF)]
        (World.fresh ())
    exact ⟨evs, h1, h4⟩

/-- Claim C7 (metadata tagging).  Every message the worker for an entry
`(name, stream)` of a copier built by `NewCopier cid srcs dst` hands to the
sink carries `cid` and `name`; it directly follows a clock sample, which
directly follows the read that produced it; its line is the first `n` bytes
of the buffer that read filled, and its timestamp is that clock sample
converted to UTC. -/
theorem metadata_tagging {σ : Type} (cid : String) (srcs : List (String × Reader))
    (dst : Logger σ) (clock : Nat → Time) (name : String) (stream : Reader) (w : World σ)
    (_hentry : (name, stream) ∈ srcs) :
    ∃ evs : List Event,
      (copySrc (NewCopier cid srcs dst) clock name stream w).1.trace = w.trace ++ evs ∧
      ∀ m res, Event.log m res ∈ evs →
        m.ContainerID = cid ∧ m.Source = name ∧
        ∃ (p : List Byte) (n : Nat) (err : Option GoError) (k : Nat),
          [Event.read p n err, Event.now (clock k), Event.log m res] <:+: evs ∧
          m.Line = p.take n ∧ m.Timestamp = (clock k).UTC ∧ w.ticks ≤ k := by
  refine ⟨_, copySrc_trace (NewCopier cid srcs dst) clock name stream w, ?_⟩
  intro m res hmem
  rw [List.mem_append] at hmem
  rcases hmem with hmem | hmem
  · obtain ⟨r, _, buf0, sink0, ticks0, _, hle, hin, hinf⟩ :=
      iter_of_mem_loopEvents (NewCopier cid srcs dst) clock name stream _ _ _ _ hmem
    obtain ⟨_, hm, hpre⟩ :=
      log_of_mem_iterEvents (NewCopier cid srcs dst) clock name r buf0 sink0 ticks0 m res hin
    refine ⟨by rw [hm]; rfl, by rw [hm], _, _, _, ticks0,
      isInfix_app_right _ (hpre.isInfix.trans hinf), by rw [hm], by rw [hm], hle⟩
  · split at hmem <;> simp at hmem

/-- Witness for C7: the `stderr` entry of a copier with two sources. -/
theorem metadata_tagging_witness :
    (("stderr", [ReadResult.mk [101] (some GoError.EOF)]) : String × Reader) ∈
      [("stdout", [ReadResult.mk [97] none]),
        ("stderr", [ReadResult.mk [101] (some GoError.EOF)])] ∧
    ∃ evs : List Event,
      (copySrc (NewCopier "c1" [("stdout", [ReadResult.mk [97] none]),
          ("stderr", [ReadResult.mk [101] (some GoError.EOF)])] okSink) tickClock "stderr"
          [ReadResult.mk [101] (some GoError.EOF)] (World.fresh ())).1.trace =
        (World.fresh () : World Unit).trace ++ evs ∧
      ∀ m res, Event.log m res ∈ evs →
        m.ContainerID = "c1" ∧ m.Source = "stderr" ∧
        ∃ (p : List Byte) (n : Nat) (err : Option GoError) (k : Nat),
          [Event.read p n err, Event.now (tickClock k), Event.log m res] <:+: evs ∧
          m.Line = p.take n ∧ m.Timestamp = (tickClock k).UTC ∧
          (World.fresh () : World Unit).ticks ≤ k :=
  ⟨by simp,
    metadata_tagging "c1" [("stdout", [ReadResult.mk [97] none]),
      ("stderr", [ReadResult.mk [101] (some GoError.EOF)])] okSink tickClock "stderr"
      [ReadResult.mk [101] (some GoError.EOF)] (World.fresh ()) (by simp)⟩

/-- Claim C5 (terminal-condition handling).  When the worker reaches a read
that returns an error `e`, it ends there: the reads after it are never
performed, the outcome is `Ended` for `io.EOF` and `Errored` otherwise, and
the trace holds no read-error diagnostic for `io.EOF` and exactly one,
carrying `e`, otherwise.  Reads that return a nil error do not end it. -/
theorem terminal_condition_handling {σ : Type} (c : Copier σ) (clock : Nat → Time)
    (name : String) (pre : Reader) (r : ReadResult) (rest : Reader) (w : World σ)
    (e : GoError) (hpre : ∀ q ∈ pre, q.err = none) (he : r.err = some e) :
    copySrc c clock name (pre ++ r :: rest) w = copySrc c clock name (pre ++ [r]) w ∧
    (copySrc c clock name (pre ++ r :: rest) w).2 =
      some (if e = GoError.EOF then Terminal.Ended else Terminal.Errored) ∧
    (∃ evs : List Event,
      (copySrc c clock name (pre ++ r :: rest) w).1.trace = w.trace ++ evs ∧
      (readsOf evs).length = pre.length + 1 ∧
      diagnostics scanErrorFmt evs = if e = GoError.EOF then [] else [[Arg.err e]]) ∧
    (copySrc c clock name pre w).2 = none ∧
    Event.done ∉ (copySrc c clock name pre { w with trace := [] }).1.trace := by
  have hst : loopStatus (pre ++ r :: rest) = finStatus (some e) := by
    rw [loopStatus_append pre _ hpre]; simp [loopStatus, he]
  refine ⟨?_, ?_, ⟨_, copySrc_trace c clock name _ w, ?_, ?_⟩, ?_, ?_⟩
  · unfold copySrc
    rw [copyLoop_stop c clock name pre r rest e hpre he]
  · rw [copySrc_status, hst]
    by_cases hE : e = GoError.EOF <;> simp [finStatus, hE]
  · obtain ⟨buf1, sink1, ticks1, _, happ⟩ :=
      loopEvents_append c clock name pre hpre (List.replicate bufSize 0) w.sink w.ticks
    have hfail : ∀ (line : List Byte) (s : String) (o : Option GoError),
        readsOf (failEvents line s o) = [] := by
      intro line s o; cases o <;> simp [failEvents, readsOf]
    have hfin : readsOf (finEvents (some e)) = [] := by
      by_cases hE : e = GoError.EOF <;> simp [finEvents, hE, readsOf]
    have hdone : readsOf (if (loopStatus (pre ++ r :: rest)).isSome = true then [Event.done]
        else []) = [] := by
      split <;> simp [readsOf]
    rw [happ, loopEvents_stop c clock name r rest e he, readsOf_append, readsOf_append,
      hdone, List.append_nil, List.length_append,
      (diagnostics_scan_loopEvents c clock name pre hpre _ _ _).2]
    unfold iterEvents fwdEvents
    split <;> simp [readsOf, readsOf_append, hfail, he, hfin]
  · obtain ⟨buf1, sink1, ticks1, _, happ⟩ :=
      loopEvents_append c clock name pre hpre (List.replicate bufSize 0) w.sink w.ticks
    have hdone : diagnostics scanErrorFmt
        (if (loopStatus (pre ++ r :: rest)).isSome = true then [Event.done] else []) = [] := by
      split <;> simp [diagnostics]
    have hfin : diagnostics scanErrorFmt (finEvents (some e)) =
        if e = GoError.EOF then [] else [[Arg.err e]] := by
      by_cases hE : e = GoError.EOF <;> simp [finEvents, hE, diagnostics]
    rw [happ, loopEvents_stop c clock name r rest e he, diagnostics_append,
      diagnostics_append, (diagnostics_scan_loopEvents c clock name pre hpre _ _ _).1, hdone]
    unfold iterEvents fwdEvents
    split <;>
      simp [diagnostics, diagnostics_append, diagnostics_scan_failEvents, he, hfin]
  · rw [copySrc_status, loopStatus_of_nil_errors pre hpre]
  · rw [copySrc_trace, loopStatus_of_nil_errors pre hpre]
    simpa using done_not_mem_loopEvents c clock name pre _ _ _

/-- Witness for C5: one good read, then a read that fails with an error other
than `io.EOF`, then a read that is never performed. -/
theorem terminal_condition_handling_witness :
    (∀ q ∈ ([ReadResult.mk [97] none] : Reader), q.err = none) ∧
    (ReadResult.mk [] (some (GoError.other "closed pipe"))).err =
      some (GoError.other "closed pipe") ∧
    (copySrc (NewCopier "c1" [] okSink) tickClock "stdout"
        ([ReadResult.mk [97] none] ++
          ReadResult.mk [] (some (GoError.other "closed pipe")) :: [ReadResult.mk [98] none])
        (World.fresh ())).2 =
      some (if GoError.other "closed pipe" = GoError.EOF then Terminal.Ended
        else Terminal.Errored) :=
  ⟨by simp, rfl,
    (terminal_condition_handling (NewCopier "c1" [] okSink) tickClock "stdout"
      [ReadResult.mk [97] none] (ReadResult.mk [] (some (GoError.other "closed pipe")))
      [ReadResult.mk [98] none] (World.fresh ()) (GoError.other "closed pipe") (by simp)
      rfl).2.1⟩

/-- Claim C10 (completion is signalled exactly once).  When the script holds a
read with an error, whatever the sink does, the worker's trace ends with the
deferred `Done` and holds no other `Done`: the barrier is decremented exactly
once, as the last thing the worker does. -/
theorem completion_signalled_once {σ : Type} (c : Copier σ) (clock : Nat → Time)
    (name : String) (src : Reader) (w : World σ) (h : ∃ r ∈ src, r.err ≠ none) :
    ∃ (evs : List Event) (t : Terminal),
      (copySrc c clock name src w).1.trace = w.trace ++ evs ++ [Event.done] ∧
      Event.done ∉ evs ∧ doneCount (evs ++ [Event.done]) = 1 ∧
      (copySrc c clock name src w).2 = some t := by
  obtain ⟨t, ht⟩ := loopStatus_isSome src h
  have hno := done_not_mem_loopEvents c clock name src (List.replicate bufSize 0) w.sink w.ticks
  refine ⟨loopEvents c clock name src (List.replicate bufSize 0) w.sink w.ticks, t, ?_, hno, ?_, ?_⟩
  · rw [copySrc_trace, ht]; simp
  · unfold doneCount
    rw [List.count_append, List.count_eq_zero_of_not_mem hno]
    simp
  · rw [copySrc_status, ht]

/-- Witness for C10: two reads, the first rejected by the sink, the second
ending the stream with a read error. -/
theorem completion_signalled_once_witness :
    (∃ r ∈ ([ReadResult.mk [97] none, ReadResult.mk [] (some (GoError.other "reset"))] : Reader),
      r.err ≠ none) ∧
    ∃ (evs : List Event) (t : Terminal),
      (copySrc (NewCopier "c1" [] badSink) tickClock "stdout"
          [ReadResult.mk [97] none, ReadResult.mk [] (some (GoError.other "reset"))]
          (World.fresh 0)).1.trace =
        (World.fresh 0 : World Nat).trace ++ evs ++ [Event.done] ∧
      Event.done ∉ evs ∧ doneCount (evs ++ [Event.done]) = 1 ∧
      (copySrc (NewCopier "c1" [] badSink) tickClock "stdout"
          [ReadResult.mk [97] none, ReadResult.mk [] (some (GoError.other "reset"))]
          (World.fresh 0)).2 = some t :=
  ⟨⟨ReadResult.mk [] (some (GoError.other "reset")), by simp, by simp⟩,
    completion_signalled_once (NewCopier "c1" [] badSink) tickClock "stdout"
      [ReadResult.mk [97] none, ReadResult.mk [] (some (GoError.other "reset"))]
      (World.fresh 0) ⟨ReadResult.mk [] (some (GoError.other "reset")), by simp, by simp⟩⟩

/-- Claim C3 (isolation of sink failures).  Run the worker on the same source
against a sink whose `Log` always succeeds and against an arbitrary sink.
The worker ends the same way, and the first trace is the second one with the
traces of the failures removed; in particular both perform the same reads and
attempt the same messages.  In the second trace there is one failed-`Log`
diagnostic per failed `Log` call, in order, carrying the line of the failed
message, the value returned by `Name()` and the error; in the first there is
none. -/
theorem sink_failures_are_isolated {σ τ : Type} (c1 : Copier σ) (c2 : Copier τ)
    (clock : Nat → Time) (name : String) (src : Reader) (w1 : World σ) (w2 : World τ)
    (hcid : c1.cid = c2.cid) (hok : ∀ s m, (c1.dst.Log s m).2 = none)
    (hticks : w1.ticks = w2.ticks) :
    ∃ evs1 evs2 : List Event,
      (copySrc c1 clock name src w1).1.trace = w1.trace ++ evs1 ∧
      (copySrc c2 clock name src w2).1.trace = w2.trace ++ evs2 ∧
      (copySrc c1 clock name src w1).2 = (copySrc c2 clock name src w2).2 ∧
      evs1 = withoutSinkFailures evs2 ∧
      readsOf evs1 = readsOf evs2 ∧ logged evs1 = logged evs2 ∧
      (nameCalls evs2).length = (failedLogs evs2).length ∧
      diagnostics logFailedFmt evs2 =
        List.zipWith (fun f s => [Arg.bytes f.1.Line, Arg.str s, Arg.err f.2])
          (failedLogs evs2) (nameCalls evs2) ∧
      diagnostics logFailedFmt evs1 = [] := by
  have hev : loopEvents c1 clock name src (List.replicate bufSize 0) w1.sink w1.ticks ++
        (if (loopStatus src).isSome = true then [Event.done] else []) =
      withoutSinkFailures
        (loopEvents c2 clock name src (List.replicate bufSize 0) w2.sink w2.ticks ++
          (if (loopStatus src).isSome = true then [Event.done] else [])) := by
    rw [withoutSinkFailures_append, (tail_done_projections _).1, hticks,
      loopEvents_withoutSinkFailures c1 c2 clock name hcid hok src _ w1.sink w2.sink]
  obtain ⟨hlen, hdiag⟩ := diagnostics_failed_loopEvents c2 clock name src
    (List.replicate bufSize 0) w2.sink w2.ticks
  obtain ⟨_, hn, hf, hd⟩ := tail_done_projections (loopStatus src).isSome
  refine ⟨_, _, copySrc_trace c1 clock name src w1, copySrc_trace c2 clock name src w2, ?_,
    hev, ?_, ?_, ?_, ?_, ?_⟩
  · rw [copySrc_status, copySrc_status]
  · rw [hev, readsOf_withoutSinkFailures]
  · rw [hev, logged_withoutSinkFailures]
  · rw [nameCalls_append, failedLogs_append, hn, hf, List.append_nil, List.append_nil, hlen]
  · rw [diagnostics_append, nameCalls_append, failedLogs_append, hn, hf, hd, List.append_nil,
      List.append_nil, List.append_nil, hdiag]
  · rw [hev, diagnostics_withoutSinkFailures]

/-- Witness for C3: a sink that accepts everything against a sink that rejects
everything, on the same two reads. -/
theorem sink_failures_are_isolated_witness :
    (NewCopier "c1" [] okSink).cid = (NewCopier "c1" [] badSink).cid ∧
    (∀ s m, ((NewCopier "c1" [] okSink).dst.Log s m).2 = none) ∧
    (World.fresh () : World Unit).ticks = (World.fresh 0 : World Nat).ticks ∧
    ∃ evs1 evs2 : List Event,
      (copySrc (NewCopier "c1" [] okSink) tickClock "stdout"
          [ReadResult.mk [97] none, ReadResult.mk [98] (some GoError.EOF)]
          (World.fresh ())).1.trace = (World.fresh () : World Unit).trace ++ evs1 ∧
      (copySrc (NewCopier "c1" [] badSink) tickClock "stdout"
          [ReadResult.mk [97] none, ReadResult.mk [98] (some GoError.EOF)]
          (World.fresh 0)).1.trace = (World.fresh 0 : World Nat).trace ++ evs2 ∧
      (copySrc (NewCopier "c1" [] okSink) tickClock "stdout"
          [ReadResult.mk [97] none, ReadResult.mk [98] (some GoError.EOF)]
          (World.fresh ())).2 =
        (copySrc (NewCopier "c1" [] badSink) tickClock "stdout"
          [ReadResult.mk [97] none, ReadResult.mk [98] (some GoError.EOF)]
          (World.fresh 0)).2 ∧
      evs1 = withoutSinkFailures evs2 ∧
      readsOf evs1 = readsOf evs2 ∧ logged evs1 = logged evs2 ∧
      (nameCalls evs2).length = (failedLogs evs2).length ∧
      diagnostics logFailedFmt evs2 =
        List.zipWith (fun f s => [Arg.bytes f.1.Line, Arg.str s, Arg.err f.2])
          (failedLogs evs2) (nameCalls evs2) ∧
      diagnostics logFailedFmt evs1 = [] :=
  ⟨rfl, fun _ _ => rfl, rfl,
    sink_failures_are_isolated (NewCopier "c1" [] okSink) (NewCopier "c1" [] badSink)
      tickClock "stdout" [ReadResult.mk [97] none, ReadResult.mk [98] (some GoError.EOF)]
      (World.fresh ()) (World.fresh 0) rfl (fun _ _ => rfl) rfl⟩

/-! ## `Run`, the barrier and `Wait` -/

theorem added_before_go (srcs : List (String × Reader)) (pre post : List RunAction)
    (name : String) (src : Reader)
    (h : (srcs.flatMap fun e => [RunAction.add 1, RunAction.go e.1 e.2]) =
      pre ++ RunAction.go name src :: post) :
    added pre = (spawned pre).length + 1 ∧ ∃ pre0, pre = pre0 ++ [RunAction.add 1] := by
  induction srcs generalizing pre with
  | nil => simp at h
  | cons e es ih =>
    simp only [List.flatMap_cons, List.cons_append, List.nil_append] at h
    match pre, h with
    | [], h => simp at h
    | [x], h =>
      simp only [List.cons_append, List.nil_append, List.cons.injEq] at h
      rw [← h.1]
      exact ⟨by simp [added, spawned], [], rfl⟩
    | x :: y :: rest, h =>
      simp only [List.cons_append, List.cons.injEq] at h
      obtain ⟨hx, hy, hrest⟩ := h
      obtain ⟨hadd, pre0, hpre0⟩ := ih rest hrest
      rw [← hx, ← hy]
      refine ⟨?_, RunAction.add 1 :: RunAction.go e.1 e.2 :: pre0, by simp [hpre0]⟩
      simp only [added, spawned, List.length_cons, hadd]
      push_cast
      ring

theorem added_spawned_run (srcs : List (String × Reader)) :
    added (srcs.flatMap fun e => [RunAction.add 1, RunAction.go e.1 e.2]) = srcs.length ∧
      spawned (srcs.flatMap fun e => [RunAction.add 1, RunAction.go e.1 e.2]) = srcs := by
  induction srcs with
  | nil => simp [added, spawned]
  | cons e es ih =>
    have hc : ((e :: es).flatMap fun e => [RunAction.add 1, RunAction.go e.1 e.2]) =
        RunAction.add 1 :: RunAction.go e.1 e.2 ::
          es.flatMap fun e => [RunAction.add 1, RunAction.go e.1 e.2] := by
      simp [List.flatMap_cons]
    rw [hc]
    simp only [added, spawned, ih.1, ih.2, List.length_cons]
    exact ⟨by push_cast; ring, trivial⟩

/-- Counterexample to C9 as stated: with two sources, when `Run` schedules the
first worker the barrier has been raised by one, not by two. -/
theorem first_worker_scheduled_after_one_add :
    Run twoSources =
      [RunAction.add 1] ++
        RunAction.go "stdout" [ReadResult.mk [97] none, ReadResult.mk [98] none,
          ReadResult.mk [] (some GoError.EOF)] ::
        [RunAction.add 1,
          RunAction.go "stderr" [ReadResult.mk [101, 114, 114] (some GoError.EOF)]] ∧
    added [RunAction.add 1] = 1 ∧ twoSources.srcs.length = 2 ∧
    ¬ ∀ (pre post : List RunAction) (name : String) (src : Reader),
        Run twoSources = pre ++ RunAction.go name src :: post →
          added pre = twoSources.srcs.length := by
  have hrun : Run twoSources =
      [RunAction.add 1] ++
        RunAction.go "stdout" [ReadResult.mk [97] none, ReadResult.mk [98] none,
          ReadResult.mk [] (some GoError.EOF)] ::
        [RunAction.add 1,
          RunAction.go "stderr" [ReadResult.mk [101, 114, 114] (some GoError.EOF)]] := by
    simp [Run, twoSources, NewCopier]
  refine ⟨hrun, by simp [added], by simp [twoSources, NewCopier], ?_⟩
  intro hall
  have h := hall _ _ _ _ hrun
  simp [added, twoSources, NewCopier] at h

/-- Claim C9, amended.  `Run` schedules exactly one worker per entry of the
source mapping, bound to that entry, and raises the barrier by the number of
sources in total; it raises it by one directly before scheduling each worker,
so when a worker is scheduled the barrier has been raised once for it and
once for each worker scheduled before it. -/
theorem run_adds_one_per_worker {σ : Type} (c : Copier σ) (pre post : List RunAction)
    (name : String) (src : Reader) (h : Run c = pre ++ RunAction.go name src :: post) :
    spawned (Run c) = c.srcs ∧ added (Run c) = c.srcs.length ∧
      added pre = (spawned pre).length + 1 ∧
      ∃ pre0, pre = pre0 ++ [RunAction.add 1] := by
  exact ⟨(added_spawned_run c.srcs).2, (added_spawned_run c.srcs).1,
    added_before_go c.srcs pre post name src h⟩

/-- Witness for C9: the second worker of a copier with two sources. -/
theorem run_adds_one_per_worker_witness :
    Run twoSources =
      [RunAction.add 1,
        RunAction.go "stdout" [ReadResult.mk [97] none, ReadResult.mk [98] none,
          ReadResult.mk [] (some GoError.EOF)],
        RunAction.add 1] ++
        RunAction.go "stderr" [ReadResult.mk [101, 114, 114] (some GoError.EOF)] :: [] ∧
    added [RunAction.add 1,
        RunAction.go "stdout" [ReadResult.mk [97] none, ReadResult.mk [98] none,
          ReadResult.mk [] (some GoError.EOF)],
        RunAction.add 1] =
      (spawned [RunAction.add 1,
        RunAction.go "stdout" [ReadResult.mk [97] none, ReadResult.mk [98] none,
          ReadResult.mk [] (some GoError.EOF)],
        RunAction.add 1]).length + 1 :=
  ⟨by simp [Run, twoSources, NewCopier],
    (run_adds_one_per_worker twoSources _ [] "stderr"
      [ReadResult.mk [101, 114, 114] (some GoError.EOF)]
      (by simp [Run, twoSources, NewCopier])).2.2.1⟩

theorem running_spawn (ws : List Worker) (name : String) (src : Reader) :
    running (ws ++ [Worker.spawn name src]) = running ws + 1 := by
  simp [running, List.countP_append, Worker.spawn]

theorem running_set (ws : List Worker) (i : Nat) (wk wk2 : Worker)
    (hget : ws[i]? = some wk) (hrun : wk.status = none) :
    running (ws.set i wk2) + (if wk2.status.isNone then 0 else 1) = running ws := by
  induction ws generalizing i with
  | nil => simp at hget
  | cons x xs ih =>
    cases i with
    | zero =>
      simp only [List.getElem?_cons_zero, Option.some.injEq] at hget
      subst hget
      simp only [List.set_cons_zero, running, List.countP_cons, hrun, Option.isNone_none,
        if_true]
      split <;> simp_all
    | succ k =>
      simp only [List.getElem?_cons_succ] at hget
      have := ih k hget
      simp only [running, List.set_cons_succ, List.countP_cons] at this ⊢
      omega

theorem wgAdd_some (counter delta k : Int) (h : wgAdd counter delta = some k) :
    k = counter + delta := by
  unfold wgAdd at h
  split at h <;> simp_all

theorem step_barrierInv {σ : Type} (clock : Nat → Time) (n : Nat) (s s2 : System σ)
    (l : Label) (hinv : BarrierInv n s) (hstep : step clock s l = some s2) :
    BarrierInv n s2 := by
  obtain ⟨hlen, rest, hshape⟩ := hinv
  cases l with
  | run =>
    rcases hshape with ⟨htodo, hcount⟩ | ⟨name, src, htodo, hcount⟩
    · cases rest with
      | nil => simp [step, htodo] at hstep
      | cons e es =>
        have htodo2 : s.todo = RunAction.add 1 :: RunAction.go e.1 e.2 ::
            es.flatMap fun e => [RunAction.add 1, RunAction.go e.1 e.2] := by
          rw [htodo]; simp [List.flatMap_cons]
        simp only [step, htodo2, Option.map_eq_some'] at hstep
        obtain ⟨k, hk, rfl⟩ := hstep
        have hk2 := wgAdd_some _ _ _ hk
        refine ⟨?_, es, Or.inr ⟨e.1, e.2, rfl, ?_⟩⟩
        · rw [htodo2] at hlen
          simpa [spawned] using hlen
        · simp only [hk2, hcount]
    · simp only [step, htodo, Option.some.injEq] at hstep
      subst hstep
      refine ⟨?_, rest, Or.inl ⟨rfl, ?_⟩⟩
      · rw [htodo] at hlen
        simp only [spawned, List.length_cons, List.length_append, List.length_nil] at hlen ⊢
        omega
      · simp only [running_spawn, hcount]
        push_cast
        ring
  | worker i =>
    simp only [step] at hstep
    cases hget : s.workers[i]? with
    | none => simp [hget] at hstep
    | some wk =>
      simp only [hget] at hstep
      cases hstat : wk.status with
      | some t => simp [hstat] at hstep
      | none =>
        cases hsrc : wk.src with
        | nil => simp [hstat, hsrc] at hstep
        | cons r rs =>
          simp only [hstat, hsrc, copyIter_eq] at hstep
          cases hfin : finStatus r.err with
          | none =>
            simp only [hfin, Option.some.injEq] at hstep
            subst hstep
            have hset := running_set s.workers i wk
              { wk with src := rs, buf := (Read r wk.buf).1 } hget hstat
            simp only [hstat, Option.isNone_none, if_true, Nat.add_zero] at hset
            refine ⟨by simpa using hlen, rest, ?_⟩
            simpa only [hset] using hshape
          | some t =>
            simp only [hfin, Option.map_eq_some'] at hstep
            obtain ⟨k, hk, rfl⟩ := hstep
            have hk2 := wgAdd_some _ _ _ hk
            have hset := running_set s.workers i wk
              { wk with src := rs, buf := (Read r wk.buf).1, status := some t } hget hstat
            simp only [Option.isNone_some, Bool.false_eq_true, if_false] at hset
            refine ⟨by simpa using hlen, rest, ?_⟩
            rcases hshape with ⟨htodo, hcount⟩ | ⟨name, src, htodo, hcount⟩
            · refine Or.inl ⟨htodo, ?_⟩
              simp only [hk2, hcount, ← hset]
              push_cast
              ring
            · refine Or.inr ⟨name, src, htodo, ?_⟩
              simp only [hk2, hcount, ← hset]
              push_cast
              ring

theorem exec_barrierInv {σ : Type} (clock : Nat → Time) (n : Nat) (labels : List Label)
    (s s2 : System σ) (hinv : BarrierInv n s) (hexec : exec clock s labels = some s2) :
    BarrierInv n s2 := by
  induction labels generalizing s with
  | nil =>
    simp only [exec, Option.some.injEq] at hexec
    exact hexec ▸ hinv
  | cons l ls ih =>
    simp only [exec, Option.bind_eq_some] at hexec
    obtain ⟨s1, hstep, hrest⟩ := hexec
    exact ih s1 (step_barrierInv clock n s s1 l hinv hstep) hrest

theorem start_barrierInv {σ : Type} (cid : String) (srcs : List (String × Reader))
    (dst : Logger σ) (w : World σ) :
    BarrierInv srcs.length (System.start (NewCopier cid srcs dst) w) := by
  refine ⟨?_, srcs, Or.inl ⟨rfl, ?_⟩⟩
  · simp [System.start, Run, NewCopier, (added_spawned_run srcs).2]
  · simp [System.start, NewCopier, running]

theorem running_eq_zero (ws : List Worker) :
    running ws = 0 ↔ ∀ wk ∈ ws, wk.status ≠ none := by
  simp [running, List.countP_eq_zero]

/-- The interleaving model agrees with `copySrc`: a running worker whose
remaining script holds a read with an error, scheduled alone until it
returns, changes the world exactly as `copySrc` does from the worker's
current buffer, ends the same way, and lowers the barrier by one. -/
theorem worker_steps_follow_copySrc {σ : Type} (clock : Nat → Time) (src : Reader)
    (s : System σ) (i : Nat) (wk : Worker) (hget : s.workers[i]? = some wk)
    (hstat : wk.status = none) (hsrc : wk.src = src) (herr : ∃ r ∈ src, r.err ≠ none)
    (hpos : 0 < s.c.copyJobs) :
    ∃ (k : Nat) (s2 : System σ),
      exec clock s (List.replicate k (Label.worker i)) = some s2 ∧
      (s2.world, (s2.workers[i]?).bind fun wk2 => wk2.status) =
        deferDone (copyLoop s.c clock wk.name src wk.buf s.world) ∧
      s2.c.copyJobs = s.c.copyJobs - 1 := by
  induction src generalizing s wk with
  | nil => simp at herr
  | cons r rs ih =>
    have hi : i < s.workers.length := by
      obtain ⟨h, _⟩ := List.getElem?_eq_some.1 hget
      exact h
    cases hr : r.err with
    | some e =>
      have hadd : wgAdd s.c.copyJobs (-1) = some (s.c.copyJobs - 1) := by
        unfold wgAdd
        rw [if_neg (by omega)]
        rfl
      obtain ⟨t, ht⟩ : ∃ t, finStatus (some e) = some t := by
        by_cases hE : e = GoError.EOF
        · exact ⟨Terminal.Ended, by simp [finStatus, hE]⟩
        · exact ⟨Terminal.Errored, by simp [finStatus, hE]⟩
      refine ⟨1,
        { c := { s.c with copyJobs := s.c.copyJobs - 1 }, todo := s.todo,
          workers := s.workers.set i
            { wk with src := rs, buf := (Read r wk.buf).1, status := some t },
          world :=
            { sink := fwdSink s.c clock wk.name (Read r wk.buf).1 (Read r wk.buf).2.1 r.err
                s.world.sink s.world.ticks,
              ticks := fwdTicks (Read r wk.buf).2.1 r.err s.world.ticks,
              trace := s.world.trace ++
                iterEvents s.c clock wk.name r wk.buf s.world.sink s.world.ticks ++
                [Event.done] } }, ?_, ?_, rfl⟩
      · simp only [List.replicate, exec, step, hget, hstat, hsrc, copyIter_eq, hr, ht, hadd,
          Option.map_some', Option.bind_some]
      · simp [copyLoop, copyIter_eq, hr, ht, deferDone, List.getElem?_set_self hi]
    | none =>
      have hrest : ∃ q ∈ rs, q.err ≠ none := by
        obtain ⟨q, hq, hne⟩ := herr
        rcases List.mem_cons.1 hq with rfl | hq
        · exact absurd hr hne
        · exact ⟨q, hq, hne⟩
      obtain ⟨k, s2, hexec, hres, hcount⟩ :=
        ih { s with
            workers := s.workers.set i { wk with src := rs, buf := (Read r wk.buf).1 },
            world :=
              { sink := fwdSink s.c clock wk.name (Read r wk.buf).1 (Read r wk.buf).2.1 r.err
                  s.world.sink s.world.ticks,
                ticks := fwdTicks (Read r wk.buf).2.1 r.err s.world.ticks,
                trace := s.world.trace ++
                  iterEvents s.c clock wk.name r wk.buf s.world.sink s.world.ticks } }
          { wk with src := rs, buf := (Read r wk.buf).1 }
          (by simp [List.getElem?_set_self hi]) hstat rfl hrest hpos
      refine ⟨k + 1, s2, ?_, ?_, hcount⟩
      · simp only [List.replicate, exec, step, hget, hstat, hsrc, copyIter_eq, hr, finStatus,
          Option.bind_some]
        rw [hr, hstat] at hexec
        simpa using hexec
      · rw [hres]
        simp [copyLoop, copyIter_eq, hr, finStatus]

/-- Claim C6 (join correctness).  In every state the program reaches, under any
interleaving of the steps of `Run` and of the workers, once `Run` has
returned every source has its worker, the barrier counter equals the number
of workers that have not terminated, and so `Wait` returns if and only if
every worker has reached `Ended` or `Errored`. -/
theorem join_barrier_invariant {σ : Type} (cid : String) (srcs : List (String × Reader))
    (dst : Logger σ) (clock : Nat → Time) (w : World σ) (labels : List Label) (s : System σ)
    (hreach : exec clock (System.start (NewCopier cid srcs dst) w) labels = some s)
    (hret : s.todo = []) :
    s.workers.length = srcs.length ∧ s.c.copyJobs = running s.workers ∧
      (Wait s.c = true ↔ ∀ wk ∈ s.workers, wk.status ≠ none) := by
  obtain ⟨hlen, rest, hshape⟩ :=
    exec_barrierInv clock srcs.length labels _ s (start_barrierInv cid srcs dst w) hreach
  have hcount : s.c.copyJobs = running s.workers := by
    rcases hshape with ⟨_, hcount⟩ | ⟨name, src, htodo, _⟩
    · exact hcount
    · rw [hret] at htodo; simp at htodo
  refine ⟨?_, hcount, ?_⟩
  · rw [hret] at hlen; simpa [spawned] using hlen
  · rw [← running_eq_zero]
    simp only [Wait, hcount, beq_iff_eq]
    exact_mod_cast Iff.rfl

theorem runThenDrain_runs :
    (exec tickClock (System.start twoSources (World.fresh ())) runThenDrain).isSome = true := by
  decide

theorem runThenDrain_returns :
    ((exec tickClock (System.start twoSources (World.fresh ())) runThenDrain).get
      runThenDrain_runs).todo = [] := by
  decide

/-- Witness for C6: the specification's example, run to completion. -/
theorem join_barrier_invariant_witness :
    ∃ s : System Unit,
      exec tickClock (System.start twoSources (World.fresh ())) runThenDrain = some s ∧
      s.todo = [] ∧ s.workers.length = twoSources.srcs.length ∧
      s.c.copyJobs = running s.workers ∧
      (Wait s.c = true ↔ ∀ wk ∈ s.workers, wk.status ≠ none) :=
  ⟨_, (Option.some_get runThenDrain_runs).symm, runThenDrain_returns,
    join_barrier_invariant "c1" _ okSink tickClock (World.fresh ()) runThenDrain _
      (Option.some_get runThenDrain_runs).symm runThenDrain_returns⟩

/-- Claim C8 (zero-source case).  A copier built with no sources is a copier
like any other.  `Run` has nothing to do and returns at once, leaving the
barrier at zero, so `Wait` returns immediately; no step of any goroutine is
possible after that, no worker exists, and the trace is the one the caller
started with, so the sink's `Log` is never called. -/
theorem zero_source_case {σ : Type} (cid : String) (dst : Logger σ) (clock : Nat → Time)
    (w : World σ) (labels : List Label) (s : System σ)
    (hreach : exec clock (System.start (NewCopier cid [] dst) w) labels = some s) :
    Run (NewCopier cid [] dst) = [] ∧
      (System.start (NewCopier cid [] dst) w).todo = [] ∧
      Wait (System.start (NewCopier cid [] dst) w).c = true ∧
      labels = [] ∧ s = System.start (NewCopier cid [] dst) w ∧
      s.workers = [] ∧ Wait s.c = true ∧ s.world.trace = w.trace ∧
      logged s.world.trace = logged w.trace := by
  have hlabels : labels = [] := by
    cases labels with
    | nil => rfl
    | cons l ls =>
      cases l <;> simp [exec, step, System.start, Run, NewCopier] at hreach
  subst hlabels
  simp only [exec, Option.some.injEq] at hreach
  subst hreach
  simp [System.start, Run, NewCopier, Wait]

/-- Witness for C8: the empty schedule from the start state. -/
theorem zero_source_case_witness :
    exec tickClock (System.start (NewCopier "c1" [] okSink) (World.fresh ())) [] =
      some (System.start (NewCopier "c1" [] okSink) (World.fresh ())) ∧
    Wait (System.start (NewCopier "c1" [] okSink) (World.fresh ())).c = true ∧
    logged (System.start (NewCopier "c1" [] okSink) (World.fresh ())).world.trace =
      logged (World.fresh () : World Unit).trace :=
  ⟨rfl,
    (zero_source_case "c1" okSink tickClock (World.fresh ()) []
      (System.start (NewCopier "c1" [] okSink) (World.fresh ())) rfl).2.2.2.2.2.2.1,
    (zero_source_case "c1" okSink tickClock (World.fresh ()) []
      (System.start (NewCopier "c1" [] okSink) (World.fresh ())) rfl).2.2.2.2.2.2.2.2⟩

end LogCopier
